import Mathlib

/-!
Shallow embedding of `nanoframe` (src/nanoframe.h): a minimal columnar data
engine with string interning (`Symbol`), a sort-based grouping index
(`Index`), and vectorized operations (`transform`, `filter`).

Conventions of the embedding:
* C++ `std::vector<Int>` columns become `List Nat`; vector indexing
  `v[i]` becomes `List.getD v i 0` (the code only indexes in bounds, so the
  default is never reached on the executions the theorems talk about).
* Key values returned by the row-key extraction function `vals` are
  modelled as `Int` (any totally ordered key type works the same way).
* `std::sort(ix.begin(), ix.end(), comp)` with `comp a b = vals a < vals b`
  is not a deterministic function: the C++ standard only guarantees that
  the result is a permutation of the input that is sorted (non-descending)
  with respect to `comp`, and in particular promises nothing about the
  relative order of elements with equal keys.  We therefore model the sort
  by its contract `stdSortOk`, and parameterize the `Index` constructor by
  any permutation satisfying the contract.
-/

namespace Nanoframe

/-- Contract of `std::sort(ix.begin(), ix.end(), [&](Int a, Int b){ return
vals(a) < vals(b); })` applied to the identity permutation of `0..n-1`
(src/nanoframe.h lines 112-119): the result is a permutation of
`0, 1, ..., n-1` that is sorted non-descending by `vals`.  Nothing more is
guaranteed by the C++ standard; in particular ties may land in any order. -/
abbrev stdSortOk (n : Nat) (vals : Nat → Int) (ix : List Nat) : Prop :=
  ix.Perm (List.range n) ∧ ix.Pairwise (fun a b => vals a ≤ vals b)

/-- The grouping index (struct `Index`, src/nanoframe.h lines 87-161):
`ix` is the sorted permutation of row ids, `group_start` the parallel
column of group representatives. -/
structure Index where
  ix : List Nat
  group_start : List Nat
  deriving DecidableEq, Repr

/-- One `range_t` value (src/nanoframe.h lines 92-108) as materialized
data: the `group_head` field plus the slice of `ix` between the two
iterators `b` and `e`. -/
structure Range where
  group_head : Nat
  slice : List Nat
  deriving DecidableEq, Repr

/-- The loop of the `Index` constructor at src/nanoframe.h lines 128-133:
for `i = i0, i0+1, ...` (running `fuel` iterations, one per remaining
position), with current `prev_i`:
`if (vals(ix[prev_i]) != vals(ix[i])) prev_i = i; group_start[i] = ix[prev_i];`.
Returns the `group_start` entries for positions `i0 .. i0+fuel-1`. -/
def gsLoop (vals : Nat → Int) (ix : List Nat) :
    Nat → Nat → Nat → List Nat
  | _, _, 0 => []
  | prev_i, i, fuel + 1 =>
    let prev' := if vals (ix.getD prev_i 0) ≠ vals (ix.getD i 0) then i else prev_i
    ix.getD prev' 0 :: gsLoop vals ix prev' (i + 1) fuel

/-- The `group_start` column computed by the `Index` constructor
(src/nanoframe.h lines 121-133) from the already-sorted permutation `ix`:
if `ix` is empty, stay empty; otherwise `group_start[0] = ix[0]`,
`prev_i` starts as `group_start[0]` (note: this is the row id `ix[0]`,
not the position `0`), and the loop fills positions `1 .. n-1`. -/
def buildGroupStart (vals : Nat → Int) (ix : List Nat) : List Nat :=
  match ix with
  | [] => []
  | x0 :: _ => x0 :: gsLoop vals ix x0 1 (ix.length - 1)

/-- The `Index` constructed from row count `n` and key function `vals`,
given a conforming result `ix` of the `std::sort` call. -/
def mkIndex (vals : Nat → Int) (ix : List Nat) : Index :=
  ⟨ix, buildGroupStart vals ix⟩

/-- The loop of `Index::merge` (src/nanoframe.h lines 138-145), threading
the whole index as state to record that the loop body never writes to
`ix` or `group_start` (it only reads them through const iterators and
`operator[]`).  For `i = i0, ...` (running `fuel` iterations) with current
`prev_i`: if `group_start[i] != group_start[prev_i]`, emit the range
`{group_start[prev_i], ix.begin()+prev_i, ix.begin()+i}` and set
`prev_i = i`.  Returns the emitted ranges, the final `prev_i`, and the
state of the index after the loop. -/
def mergeLoop : Nat → Nat → Nat → Index → List Range × Nat × Index
  | 0, prev_i, _, st => ([], prev_i, st)
  | fuel + 1, prev_i, i, st =>
    if st.group_start.getD i 0 ≠ st.group_start.getD prev_i 0 then
      let r : Range := ⟨st.group_start.getD prev_i 0, (st.ix.drop prev_i).take (i - prev_i)⟩
      let rest := mergeLoop fuel i (i + 1) st
      (r :: rest.1, rest.2.1, rest.2.2)
    else
      mergeLoop fuel prev_i (i + 1) st

/-- `Index::merge` (src/nanoframe.h lines 136-152): run the loop over all
positions, then, if `group_start` is nonempty, emit the final trailing
range `{group_start[prev_i], ix.begin()+prev_i, ix.end()}`; return the
list of ranges passed to the callback `f`, the state of `*this` after the
call, and the returned `Index` (the C++ returns `*this` by value, i.e. a
copy of the state at return time). -/
def merge (idx : Index) : List Range × Index × Index :=
  let out := mergeLoop idx.ix.length 0 0 idx
  let st := out.2.2
  let p := out.2.1
  let rs :=
    if st.group_start.length > 0 then
      out.1 ++ [⟨st.group_start.getD p 0, (st.ix.drop p).take (st.ix.length - p)⟩]
    else
      out.1
  (rs, st, st)

/-- Helper for `indexes`: `std::unique` over the tail, keeping the first
element of each run of consecutive equal values (src/nanoframe.h line 157). -/
def uniqueLoop (prev : Nat) : List Nat → List Nat
  | [] => []
  | b :: t => if b = prev then uniqueLoop prev t else b :: uniqueLoop b t

/-- `Index::indexes` (src/nanoframe.h lines 154-160): copy `group_start`
and erase consecutive duplicates (`std::unique` + `erase`). -/
def indexes (idx : Index) : List Nat :=
  match idx.group_start with
  | [] => []
  | a :: t => a :: uniqueLoop a t

end Nanoframe

namespace Nanoframe

/-! ### Concrete key functions used in counterexamples and witnesses -/

/-- Three rows with keys `2, 1, 1`: rows 1 and 2 share a key, row 0 does not. -/
def vals3 (i : Nat) : Int := ([2, 1, 1] : List Int).getD i 0

/-- The key column `[3, 1, 3, 2, 1]` of the specification's example
scenario 2 (spec.md section 8): expected groups are key 1 -> rows 1,4;
key 2 -> row 3; key 3 -> rows 0,2. -/
def vals5 (i : Nat) : Int := ([3, 1, 3, 2, 1] : List Int).getD i 0

/-- Two rows with equal keys. -/
def vals2 (_ : Nat) : Int := 0

/-! ### The specified group_start invariant -/

/-- Sorted position of the first member of the group of sorted position
`i`: the least `j` whose key equals the key at position `i` (groups of a
sorted permutation are maximal runs of equal keys, so the least equal-key
position is the group's start). -/
def firstEqPos (vals : Nat → Int) (ix : List Nat) (i : Nat) : Nat :=
  (((List.range ix.length).find? (fun j => vals (ix.getD j 0) == vals (ix.getD i 0))).getD i)

/-- The invariant claimed for `group_start` (spec.md section 3): for any
two sorted positions `i, j`, `gs[i] = gs[j]` iff positions `i` and `j`
hold equal keys, and each entry is the row id of the first sorted-order
member of its group. -/
abbrev groupInvariant (vals : Nat → Int) (ix gs : List Nat) : Prop :=
  (∀ i, i < ix.length → ∀ j, j < ix.length →
      (gs.getD i 0 = gs.getD j 0 ↔ vals (ix.getD i 0) = vals (ix.getD j 0))) ∧
  (∀ i, i < ix.length → gs.getD i 0 = ix.getD (firstEqPos vals ix i) 0)

/-- Stability of a sorted permutation: rows with equal keys appear in
their original relative (row-id) order. -/
abbrev stableSorted (vals : Nat → Int) (l : List Nat) : Prop :=
  l.Pairwise (fun a b => vals a = vals b → a < b)

/-- The representative contract claimed for `indexes` (spec.md section 4.2):
keys of the returned row ids are strictly ascending (hence no duplicate
entries), and there is exactly one entry per distinct key value. -/
abbrev repsOk (vals : Nat → Int) (idx : Index) : Prop :=
  (indexes idx).Pairwise (fun a b => vals a < vals b) ∧
  (indexes idx).length = ((idx.ix.map vals).dedup).length

/-! ### Helper lemmas about the building blocks -/

lemma gsLoop_length (vals : Nat → Int) (ix : List Nat) :
    ∀ fuel prev_i i, (gsLoop vals ix prev_i i fuel).length = fuel := by
  intro fuel
  induction fuel with
  | zero => intro p i; rfl
  | succ f ih => intro p i; simp [gsLoop, ih]

lemma buildGroupStart_length (vals : Nat → Int) (ix : List Nat) :
    (buildGroupStart vals ix).length = ix.length := by
  cases ix with
  | nil => rfl
  | cons a t => simp [buildGroupStart, gsLoop_length]

lemma mergeLoop_state : ∀ (fuel prev_i i : Nat) (st : Index),
    (mergeLoop fuel prev_i i st).2.2 = st := by
  intro fuel
  induction fuel with
  | zero => intro p i st; rfl
  | succ f ih =>
    intro p i st
    simp only [mergeLoop]
    split
    · exact ih i (i + 1) st
    · exact ih p (i + 1) st

/-- Concatenating the slices of the emitted ranges. -/
def rangesJoin (rs : List Range) : List Nat :=
  (rs.map Range.slice).flatten

lemma rangesJoin_cons (r : Range) (rs : List Range) :
    rangesJoin (r :: rs) = r.slice ++ rangesJoin rs := by
  simp [rangesJoin]

lemma take_drop_glue {l : List Nat} {p i : Nat} (h : p ≤ i) :
    (l.drop p).take (i - p) ++ l.drop i = l.drop p := by
  have hd : l.drop i = (l.drop p).drop (i - p) := by
    rw [List.drop_drop, Nat.add_sub_cancel' h]
  rw [hd, List.take_append_drop]

lemma mergeLoop_join (st : Index) :
    ∀ (fuel prev_i i : Nat), prev_i ≤ i → i + fuel = st.ix.length →
      rangesJoin (mergeLoop fuel prev_i i st).1
          ++ st.ix.drop (mergeLoop fuel prev_i i st).2.1
        = st.ix.drop prev_i := by
  intro fuel
  induction fuel with
  | zero =>
    intro p i hpi hlen
    simp [mergeLoop, rangesJoin]
  | succ f ih =>
    intro p i hpi hlen
    simp only [mergeLoop]
    split
    · have hrec := ih i (i + 1) (Nat.le_succ i) (by omega)
      simp only [rangesJoin_cons]
      rw [List.append_assoc, hrec, take_drop_glue hpi]
    · have hrec := ih p (i + 1) (by omega) (by omega)
      exact hrec

end Nanoframe

namespace Nanoframe

/-- For three rows with keys `2, 1, 1` there are exactly two conforming
results of the `std::sort` call: the two tie orders of rows 1 and 2. -/
lemma sortOk3_eq (ix : List Nat) (h : stdSortOk 3 vals3 ix) :
    ix = [1, 2, 0] ∨ ix = [2, 1, 0] := by
  obtain ⟨hp, hs⟩ := h
  have hm : ix ∈ (List.range 3).permutations' := List.mem_permutations'.mpr hp
  have he : (List.range 3).permutations' =
      [[0, 1, 2], [1, 0, 2], [1, 2, 0], [0, 2, 1], [2, 0, 1], [2, 1, 0]] := by decide
  rw [he] at hm
  fin_cases hm
  · exact absurd hs (by decide)
  · exact absurd hs (by decide)
  · left; rfl
  · exact absurd hs (by decide)
  · exact absurd hs (by decide)
  · right; rfl

end Nanoframe

namespace Nanoframe

/-- Claim C1 is violated by the code: the constructor at src/nanoframe.h
lines 125-133 initializes `prev_i` to `group_start[0] = ix[0]` — an
original row id — and then uses it as a sorted position in
`vals(ix[prev_i])`.  For the three-row key column `2, 1, 1`, under every
conforming result of the `std::sort` call, the computed `group_start`
breaks the claimed invariant (sorted positions 0 and 1 carry equal keys
but different `group_start` values); the same happens for the
specification's own example scenario (keys `3, 1, 3, 2, 1`, stable sort
order `[1, 4, 3, 0, 2]`), where `group_start = [1, 4, 3, 0, 0]` splits the
key-1 group. -/
theorem c1_group_start_invariant_fails :
    (∀ ix : List Nat, stdSortOk 3 vals3 ix →
      ¬ groupInvariant vals3 ix (mkIndex vals3 ix).group_start) ∧
    (stdSortOk 5 vals5 [1, 4, 3, 0, 2] ∧
      (mkIndex vals5 [1, 4, 3, 0, 2]).group_start = [1, 4, 3, 0, 0] ∧
      ¬ groupInvariant vals5 [1, 4, 3, 0, 2]
        (mkIndex vals5 [1, 4, 3, 0, 2]).group_start) := by
  refine ⟨fun ix h => ?_, by decide, by decide, by decide⟩
  rcases sortOk3_eq ix h with rfl | rfl
  · decide
  · decide

/-- Witness for the universally quantified part of
`c1_group_start_invariant_fails` at the concrete conforming sort result
`[1, 2, 0]`. -/
theorem c1_group_start_invariant_fails_witness :
    ¬ groupInvariant vals3 [1, 2, 0] (mkIndex vals3 [1, 2, 0]).group_start :=
  c1_group_start_invariant_fails.1 [1, 2, 0] (by decide)

/-- Claim C2 is violated by the code: line 116 of src/nanoframe.h calls
`std::sort`, not `std::stable_sort`, so the code guarantees only the
contract `stdSortOk`.  That contract admits a conforming execution that
reverses two rows with equal keys: `[1, 0]` is a conforming sort result
for two equal-key rows, the built index stores it as its permutation
unchanged, and it violates stability (row 1 precedes row 0). -/
theorem c2_sort_not_stable :
    stdSortOk 2 vals2 [1, 0] ∧
    (mkIndex vals2 [1, 0]).ix = [1, 0] ∧
    ¬ stableSorted vals2 [1, 0] := by
  decide

/-- Claim C4 is violated by the code as a consequence of the `group_start`
defect shown in `c1_group_start_invariant_fails`: for keys `2, 1, 1`,
under every conforming sort result, `indexes()` (deduplication of
consecutive `group_start` values) returns two representatives for key 1,
so its entries' keys are not strictly ascending and its length exceeds
the number of distinct keys; the specification's example scenario
(keys `3, 1, 3, 2, 1`) likewise yields `indexes() = [1, 4, 3, 0]`, four
entries for three distinct keys. -/
theorem c4_indexes_fails :
    (∀ ix : List Nat, stdSortOk 3 vals3 ix → ¬ repsOk vals3 (mkIndex vals3 ix)) ∧
    (indexes (mkIndex vals5 [1, 4, 3, 0, 2]) = [1, 4, 3, 0] ∧
      ¬ repsOk vals5 (mkIndex vals5 [1, 4, 3, 0, 2])) := by
  refine ⟨fun ix h => ?_, by decide, by decide⟩
  rcases sortOk3_eq ix h with rfl | rfl
  · decide
  · decide

/-- Witness for the universally quantified part of `c4_indexes_fails` at
the concrete conforming sort result `[1, 2, 0]`. -/
theorem c4_indexes_fails_witness :
    ¬ repsOk vals3 (mkIndex vals3 [1, 2, 0]) :=
  c4_indexes_fails.1 [1, 2, 0] (by decide)

/-- Claim C10: `Index::merge` (src/nanoframe.h lines 136-152) never
writes to `ix` or `group_start` — the state of the index after the call
equals the state before it — and the `Index` it returns (`return *this`
by value) is a copy equal to the original. -/
theorem c10_merge_does_not_modify (idx : Index) :
    (merge idx).2.1 = idx ∧ (merge idx).2.2 = idx := by
  simp only [merge, mergeLoop_state]
  exact ⟨trivial, trivial⟩

end Nanoframe

namespace Nanoframe

/-- Claim C3: for every built grouping index, iterating the groups with
`Index::merge` emits contiguous ranges over the permutation whose
`[begin, end)` slices concatenate to exactly the permutation `ix`; since
`ix` is a permutation of `0..n-1`, every original row id appears in
exactly one emitted range's slice, with no omission and no duplication.
For `n = 0` the permutation and `group_start` are empty and the callback
is never invoked.  This holds for every conforming result of the
`std::sort` call, independently of the `group_start` defect. -/
theorem c3_merge_partition (n : Nat) (vals : Nat → Int) (ix : List Nat)
    (h : stdSortOk n vals ix) :
    rangesJoin (merge (mkIndex vals ix)).1 = ix ∧
    ix.Perm (List.range n) ∧
    (n = 0 → (mkIndex vals ix).ix = [] ∧ (mkIndex vals ix).group_start = [] ∧
      (merge (mkIndex vals ix)).1 = []) := by
  obtain ⟨hperm, _⟩ := h
  have hlen : ix.length = n := by
    simpa using hperm.length_eq
  have hnil : n = 0 → ix = [] := by
    intro h0
    subst h0
    exact hperm.eq_nil
  refine ⟨?_, hperm, ?_⟩
  · cases hix : ix with
    | nil =>
      subst hix
      rfl
    | cons a t =>
      subst hix
      set idx := mkIndex vals (a :: t) with hidx
      have hgslen : idx.group_start.length = (a :: t).length :=
        buildGroupStart_length vals (a :: t)
      have hstate := mergeLoop_state idx.ix.length 0 0 idx
      have hjoin := mergeLoop_join idx idx.ix.length 0 0 (Nat.le_refl 0) (by omega)
      simp only [merge, hstate]
      rw [if_pos (by rw [hgslen]; simp)]
      set p := (mergeLoop idx.ix.length 0 0 idx).2.1 with hp
      have hfinal : (idx.ix.drop p).take (idx.ix.length - p) = idx.ix.drop p := by
        apply List.take_of_length_le
        simp
      simp only [rangesJoin, List.map_append, List.flatten_append]
      rw [hfinal]
      have hdrop : rangesJoin (mergeLoop idx.ix.length 0 0 idx).1 ++ idx.ix.drop p =
          idx.ix.drop 0 := hjoin
      simpa [rangesJoin] using hdrop
  · intro h0
    have := hnil h0
    subst this
    exact ⟨rfl, rfl, rfl⟩

/-- Witness for `c3_merge_partition` at the specification's example
scenario: five rows with keys `3, 1, 3, 2, 1` and the stable conforming
sort result `[1, 4, 3, 0, 2]`. -/
theorem c3_merge_partition_witness :
    rangesJoin (merge (mkIndex vals5 [1, 4, 3, 0, 2])).1 = [1, 4, 3, 0, 2] ∧
    ([1, 4, 3, 0, 2] : List Nat).Perm (List.range 5) ∧
    (5 = 0 → (mkIndex vals5 [1, 4, 3, 0, 2]).ix = [] ∧
      (mkIndex vals5 [1, 4, 3, 0, 2]).group_start = [] ∧
      (merge (mkIndex vals5 [1, 4, 3, 0, 2])).1 = []) :=
  c3_merge_partition 5 vals5 [1, 4, 3, 0, 2] (by decide)

end Nanoframe

namespace Nanoframe

/-! ### String interning (`intern_table`, `Symbol`), src/nanoframe.h lines 26-72 -/

/-- The process-wide dictionary of one tag (`intern_table<TAG, Int>()`,
src/nanoframe.h lines 28-32), modelled as the association list of its
entries in insertion order.  The `unordered_map` has no meaningful order;
insertion order is the canonical presentation and `findCode` looks keys up
by string equality exactly as `table.find(s)` does. -/
abbrev InternState := List (String × Nat)

/-- `table.find(s)` (src/nanoframe.h line 46): the code stored for string
`s`, if present. -/
def findCode : InternState → String → Option Nat
  | [], _ => none
  | (k, c) :: t, s => if k = s then some c else findCode t s

/-- `Symbol::Symbol(const std::string&)` (src/nanoframe.h lines 44-54):
look `s` up; if absent execute `table[s] = table.size() + 1` (the right
operand is sequenced first in C++17, so the new code is the size before
insertion plus one) and return the code now stored for `s` together with
the updated table. -/
def intern (st : InternState) (s : String) : Nat × InternState :=
  match findCode st s with
  | some c => (c, st)
  | none => (st.length + 1, st ++ [(s, st.length + 1)])

/-- The reachable-state invariant of the dictionary: distinct strings,
and the stored codes are exactly `1, 2, ..., size` in insertion order.
The empty table satisfies it and `intern` preserves it. -/
abbrev WFIntern (st : InternState) : Prop :=
  (st.map Prod.fst).Nodup ∧ st.map Prod.snd = List.range' 1 st.length

/-- `Symbol::Symbol(null_symbol)` (src/nanoframe.h line 42): code 0, the
dictionary untouched. -/
def internNull (st : InternState) : Nat × InternState := (0, st)

/-- `Symbol::null` (src/nanoframe.h lines 63-65). -/
def symNull (val : Nat) : Bool := val == 0

/-- `Symbol::ok` (src/nanoframe.h lines 67-69). -/
def symOk (val : Nat) : Bool := val != 0

lemma findCode_mem : ∀ (st : InternState) (s : String) (c : Nat),
    findCode st s = some c → (s, c) ∈ st := by
  intro st
  induction st with
  | nil => intro s c h; cases h
  | cons p t ih =>
    intro s c h
    obtain ⟨k, v⟩ := p
    simp only [findCode] at h
    split at h
    · next heq =>
      cases h
      subst heq
      exact List.mem_cons_self _ _
    · exact List.mem_cons_of_mem _ (ih s c h)

lemma findCode_none_not_mem : ∀ (st : InternState) (s : String),
    findCode st s = none → s ∉ st.map Prod.fst := by
  intro st
  induction st with
  | nil => intro s _ hmem; cases hmem
  | cons p t ih =>
    intro s h hmem
    obtain ⟨k, v⟩ := p
    simp only [findCode] at h
    split at h
    · cases h
    · next hne =>
      rcases List.mem_cons.mp hmem with heq | hmem2
      · exact hne heq.symm
      · exact ih s h hmem2

lemma findCode_append_none : ∀ (st l : InternState) (s : String),
    findCode st s = none → findCode (st ++ l) s = findCode l s := by
  intro st
  induction st with
  | nil => intro l s _; rfl
  | cons p t ih =>
    intro l s h
    obtain ⟨k, v⟩ := p
    simp only [findCode] at h ⊢
    split at h
    · cases h
    · next hne =>
      rw [if_neg hne]
      exact ih l s h

lemma findCode_append_some : ∀ (st l : InternState) (s : String) (c : Nat),
    findCode st s = some c → findCode (st ++ l) s = some c := by
  intro st
  induction st with
  | nil => intro l s c h; cases h
  | cons p t ih =>
    intro l s c h
    obtain ⟨k, v⟩ := p
    simp only [findCode] at h ⊢
    split at h
    · next heq =>
      rw [if_pos heq]
      exact h
    · next hne =>
      rw [if_neg hne]
      exact ih l s c h

lemma WFIntern_code_bounds {st : InternState} (hwf : WFIntern st)
    {s : String} {c : Nat} (hmem : (s, c) ∈ st) : 1 ≤ c ∧ c ≤ st.length := by
  have hc : c ∈ st.map Prod.snd := List.mem_map_of_mem Prod.snd hmem
  rw [hwf.2] at hc
  have := List.mem_range'_1.mp hc
  omega

lemma WFIntern_code_inj {st : InternState} (hwf : WFIntern st)
    {s1 s2 : String} {c : Nat}
    (h1 : findCode st s1 = some c) (h2 : findCode st s2 = some c) : s1 = s2 := by
  have m1 := findCode_mem st s1 c h1
  have m2 := findCode_mem st s2 c h2
  have hnd : (st.map Prod.snd).Nodup := by
    rw [hwf.2]
    exact List.nodup_range' 1 st.length
  have := List.inj_on_of_nodup_map hnd m1 m2 rfl
  exact congrArg Prod.fst this

lemma WFIntern_insert {st : InternState} (hwf : WFIntern st)
    {s : String} (h : findCode st s = none) :
    WFIntern (st ++ [(s, st.length + 1)]) := by
  constructor
  · rw [List.map_append]
    rw [List.nodup_append]
    refine ⟨hwf.1, List.nodup_singleton s, ?_⟩
    intro x hx hy
    simp only [List.map_cons, List.map_nil, List.mem_singleton] at hy
    subst hy
    exact findCode_none_not_mem st x h hx
  · rw [List.map_append, hwf.2]
    simp only [List.length_append, List.map_cons, List.map_nil, List.length_cons,
      List.length_nil]
    rw [List.range'_concat]
    simp [Nat.add_comm]

/-- Re-interning the string just interned returns the same code and
leaves the table unchanged. -/
lemma reintern_eq (st : InternState) (s : String) :
    intern (intern st s).2 s = ((intern st s).1, (intern st s).2) := by
  cases hf : findCode st s with
  | some c => simp [intern, hf]
  | none =>
    have h2 : findCode (st ++ [(s, st.length + 1)]) s = some (st.length + 1) := by
      rw [findCode_append_none st _ s hf]
      simp [findCode]
    simp [intern, hf, h2]

/-- Claim C5: on any reachable dictionary state, interning `s` returns the
existing code when `s` is present (leaving the table unchanged), and
otherwise assigns and returns `size + 1`, preserving the invariant that
codes are `1, 2, ...` in first-seen order; re-interning the string just
interned changes neither its code nor the table. -/
theorem c5_intern_first_seen (st : InternState) (s : String) (hwf : WFIntern st) :
    (∀ c, findCode st s = some c → intern st s = (c, st)) ∧
    (findCode st s = none →
      intern st s = (st.length + 1, st ++ [(s, st.length + 1)]) ∧
      WFIntern (intern st s).2) ∧
    intern (intern st s).2 s = ((intern st s).1, (intern st s).2) := by
  refine ⟨?_, ?_, reintern_eq st s⟩
  · intro c h
    simp [intern, h]
  · intro h
    refine ⟨by simp [intern, h], ?_⟩
    simp only [intern, h]
    exact WFIntern_insert hwf h

/-- Witness for `c5_intern_first_seen` at the concrete state holding only
`"a"` with code 1: interning the fresh string `"b"` assigns code 2, and
re-interning `"b"` is a no-op. -/
theorem c5_intern_first_seen_witness :
    intern [("a", 1)] "b" = (2, [("a", 1), ("b", 2)]) ∧
    intern [("a", 1), ("b", 2)] "b" = (2, [("a", 1), ("b", 2)]) :=
  ⟨((c5_intern_first_seen [("a", 1)] "b" (by decide)).2.1 (by decide)).1,
   (c5_intern_first_seen [("a", 1)] "b" (by decide)).2.2⟩

/-- Claim C6: under one tag, starting from any reachable dictionary state,
interning `s1` and then `s2` yields equal codes iff the strings are equal. -/
theorem c6_intern_inj (st : InternState) (s1 s2 : String) (hwf : WFIntern st) :
    (intern (intern st s1).2 s2).1 = (intern st s1).1 ↔ s1 = s2 := by
  constructor
  · intro heq
    by_contra hne
    cases h1 : findCode st s1 with
    | some c1 =>
      have e1 : intern st s1 = (c1, st) := by simp [intern, h1]
      rw [e1] at heq
      have hb1 := WFIntern_code_bounds hwf (findCode_mem st s1 c1 h1)
      cases h2 : findCode st s2 with
      | some c2 =>
        have e2 : (intern st s2).1 = c2 := by simp [intern, h2]
        simp only [e2] at heq
        subst heq
        exact hne (WFIntern_code_inj hwf h1 h2)
      | none =>
        have e2 : (intern st s2).1 = st.length + 1 := by simp [intern, h2]
        simp only [e2] at heq
        omega
    | none =>
      have e1 : intern st s1 = (st.length + 1, st ++ [(s1, st.length + 1)]) := by
        simp [intern, h1]
      rw [e1] at heq
      cases h2 : findCode st s2 with
      | some c2 =>
        have hf2 : findCode (st ++ [(s1, st.length + 1)]) s2 = some c2 :=
          findCode_append_some st _ s2 c2 h2
        have e2 : (intern (st ++ [(s1, st.length + 1)]) s2).1 = c2 := by
          simp [intern, hf2]
        simp only [e2] at heq
        have hb2 := WFIntern_code_bounds hwf (findCode_mem st s2 c2 h2)
        omega
      | none =>
        have hf2 : findCode (st ++ [(s1, st.length + 1)]) s2 = none := by
          rw [findCode_append_none st _ s2 h2]
          simp only [findCode]
          rw [if_neg hne]
        have e2 : (intern (st ++ [(s1, st.length + 1)]) s2).1 =
            (st ++ [(s1, st.length + 1)]).length + 1 := by
          simp [intern, hf2]
        simp only [e2, List.length_append] at heq
        simp at heq
  · intro heq
    subst heq
    exact congrArg Prod.fst (reintern_eq st s1)

/-- Witness for `c6_intern_inj` on the empty dictionary with the distinct
strings `"x"` and `"y"`. -/
theorem c6_intern_inj_witness :
    ((intern (intern [] "x").2 "y").1 = (intern [] "x").1 ↔ "x" = "y") :=
  c6_intern_inj [] "x" "y" (by decide)

/-- Claim C7: constructing a `Symbol` from the null marker yields code 0
and does not modify the dictionary, `null()` is true exactly when the code
is 0, and interning any string on a reachable state never yields code 0. -/
theorem c7_null_code (st : InternState) (s : String) (c : Nat)
    (hwf : WFIntern st) :
    internNull st = (0, st) ∧
    (symNull c = true ↔ c = 0) ∧
    (intern st s).1 ≠ 0 := by
  refine ⟨rfl, by simp [symNull], ?_⟩
  cases hf : findCode st s with
  | some c' =>
    have hb := WFIntern_code_bounds hwf (findCode_mem st s c' hf)
    have e : (intern st s).1 = c' := by simp [intern, hf]
    omega
  | none =>
    have e : (intern st s).1 = st.length + 1 := by simp [intern, hf]
    omega

/-- Witness for `c7_null_code` at the one-entry dictionary and string `"a"`. -/
theorem c7_null_code_witness :
    internNull [("a", 1)] = (0, [("a", 1)]) ∧
    (symNull 0 = true ↔ 0 = 0) ∧
    (intern [("a", 1)] "a").1 ≠ 0 :=
  c7_null_code [("a", 1)] "a" 0 (by decide)

end Nanoframe

namespace Nanoframe

/-! ### Vector operations (`transform`, `filter`), src/nanoframe.h lines 163-227 -/

/-- The error message thrown by the length-checked `transform` overloads
(src/nanoframe.h lines 174 and 187): it names both lengths. -/
def sizeMismatchMsg (a b : Nat) : String :=
  "Column size mismatch in nanoframe::transform: " ++ toString a ++ " != " ++ toString b

/-- The write loop of `transform` (src/nanoframe.h lines 177-179):
`for (i = 0; i < t.size(); ++i) t[i] = f(t[i], s[i]);`.  Each slot `i` is
overwritten with `f` of its current (original) value and `s[i]`; the
write to slot `i` cannot affect the reads of later iterations, so the
loop computes the elementwise image.  The second equation is unreachable
under the length guard. -/
def transformLoop {T S : Type} (f : T → S → T) : List T → List S → List T
  | [], _ => []
  | a :: t, [] => a :: t
  | a :: t, b :: s => f a b :: transformLoop f t s

/-- The two-sequence `transform` (src/nanoframe.h lines 172-182): if the
lengths differ, throw `std::runtime_error` with the size-mismatch message
before any element is written, leaving the destination unchanged;
otherwise run the write loop and report success.  The result pairs the
destination sequence after the call with the outcome.  (The copying
overload at lines 184-197 performs the same check and the same loop on a
copy; it is the same function on values.) -/
def transform {T S : Type} (t : List T) (s : List S) (f : T → S → T) :
    List T × Except String Unit :=
  if t.length = s.length then (transformLoop f t s, Except.ok ())
  else (t, Except.error (sizeMismatchMsg t.length s.length))

/-- `filter` (src/nanoframe.h lines 218-227): push `t[i]` for each `i` in
`ix`, in order.  `std::vector::operator[]` performs no bounds check (out
of range is undefined behaviour); the embedding totalizes it with
`default`, and the claims only constrain in-bounds executions. -/
def filter {T : Type} [Inhabited T] (t : List T) : List Nat → List T
  | [] => []
  | i :: rest => t.getD i default :: filter t rest

lemma transformLoop_length {T S : Type} (f : T → S → T) :
    ∀ (t : List T) (s : List S), t.length = s.length →
      (transformLoop f t s).length = t.length := by
  intro t
  induction t with
  | nil => intro s _; rfl
  | cons a t ih =>
    intro s h
    cases s with
    | nil => cases h
    | cons b s =>
      simp only [transformLoop, List.length_cons]
      rw [ih s (by simpa using h)]

lemma transformLoop_getD {T S : Type} (f : T → S → T) :
    ∀ (t : List T) (s : List S), t.length = s.length →
      ∀ i, i < t.length → ∀ (dT : T) (dS : S),
        (transformLoop f t s).getD i dT = f (t.getD i dT) (s.getD i dS) := by
  intro t
  induction t with
  | nil => intro s _ i hi; cases hi
  | cons a t ih =>
    intro s h i hi dT dS
    cases s with
    | nil => cases h
    | cons b s =>
      cases i with
      | zero => rfl
      | succ j =>
        simp only [transformLoop, List.getD_cons_succ]
        exact ih s (by simpa using h) j (by simpa using hi) dT dS

/-- Claim C8: the two-sequence `transform` checks the lengths before any
write: on mismatch it fails with the size-mismatch error naming both
lengths and the destination is unchanged; on matching lengths it succeeds
and every slot `i` holds `f(dst[i], src[i])`. -/
theorem c8_transform_size_check {T S : Type} (t : List T) (s : List S)
    (f : T → S → T) :
    (t.length ≠ s.length →
      transform t s f = (t, Except.error (sizeMismatchMsg t.length s.length))) ∧
    (t.length = s.length →
      (transform t s f).2 = Except.ok () ∧
      (transform t s f).1.length = t.length ∧
      ∀ i, i < t.length → ∀ (dT : T) (dS : S),
        (transform t s f).1.getD i dT = f (t.getD i dT) (s.getD i dS)) := by
  constructor
  · intro h
    simp [transform, h]
  · intro h
    refine ⟨by simp [transform, h], ?_, ?_⟩
    · simp only [transform, if_pos h]
      exact transformLoop_length f t s h
    · intro i hi dT dS
      simp only [transform, if_pos h]
      exact transformLoop_getD f t s h i hi dT dS

/-- Witness for `c8_transform_size_check`: the specification's example
scenarios 3 and 4 — adding `[10,20,30]` to `[1,2]` fails with the message
naming lengths 2 and 3, while adding it to `[1,2,3]` writes the sums. -/
theorem c8_transform_size_check_witness :
    transform [1, 2] [10, 20, 30] Nat.add =
      ([1, 2], Except.error (sizeMismatchMsg 2 3)) ∧
    (transform [1, 2, 3] [10, 20, 30] Nat.add).1.getD 1 0 =
      Nat.add 2 20 :=
  ⟨(c8_transform_size_check [1, 2] [10, 20, 30] Nat.add).1 (by decide),
   ((c8_transform_size_check [1, 2, 3] [10, 20, 30] Nat.add).2 (by decide)).2.2
     1 (by decide) 0 0⟩

/-- Claim C9: for indices all within the column's length, `filter` returns
a sequence as long as the index sequence whose entry `k` is
`column[indices[k]]`; the empty index sequence yields the empty sequence. -/
theorem c9_filter_gather {T : Type} [Inhabited T] (t : List T) (ixs : List Nat)
    (_hbound : ∀ i ∈ ixs, i < t.length) :
    (filter t ixs).length = ixs.length ∧
    (∀ k, k < ixs.length →
      (filter t ixs).getD k default = t.getD (ixs.getD k 0) default) ∧
    filter t ([] : List Nat) = ([] : List T) := by
  clear _hbound
  refine ⟨?_, ?_, rfl⟩
  · induction ixs with
    | nil => rfl
    | cons i rest ih => simp only [filter, List.length_cons, ih]
  · induction ixs with
    | nil => intro k hk; cases hk
    | cons i rest ih =>
      intro k hk
      cases k with
      | zero => rfl
      | succ j =>
        simp only [filter, List.getD_cons_succ]
        exact ih j (by simpa using hk)

/-- Witness for `c9_filter_gather`: the specification's example scenario 5,
`filter(["a","b","c"], [2,0])`, whose entries are `"c"` and `"a"`. -/
theorem c9_filter_gather_witness :
    (filter ["a", "b", "c"] [2, 0]).length = 2 ∧
    (∀ k, k < ([2, 0] : List Nat).length →
      (filter ["a", "b", "c"] [2, 0]).getD k default =
        ["a", "b", "c"].getD (([2, 0] : List Nat).getD k 0) default) ∧
    filter ["a", "b", "c"] ([] : List Nat) = ([] : List String) :=
  c9_filter_gather ["a", "b", "c"] [2, 0] (by decide)

end Nanoframe
